import Mathlib

/-!
Verification of the NATTEN 1D neighborhood-neighborhood (score-times-value
aggregation) CPU reference kernel,
src/csrc/include/natten/cpu/naive/neighborhood_neighborhood_1d.hpp.

The kernel is a template over a scalar type; we embed it generically over the
scalar carrier together with its addition, multiplication and zero, so that
both exact rings (used for the functional-correctness claims) and rounding
arithmetics (used for the accumulation-precision claims) instantiate the same
embedding.  Machine int32_t / int64_t index arithmetic is embedded as
unbounded integers; memory buffers are functions from integer addresses to
scalars, and the loop nest is embedded as a list of (address, value) writes
executed left to right.

The window-geometry helpers get_window_start / get_window_end live in
natten_cpu_commons.h, which is not part of the sources here; they are
modelled from the specification text (section 4.1 of the spec).
-/

set_option linter.unusedVariables false

namespace Natten

/-- Modelled from the spec: get_window_start from natten_cpu_commons.h (the
header is not among the provided sources; only its caller is).  Spec 4.1:
the non-causal window is centered on the query index, clipped to the axis,
then re-expanded on the opposite side so that exactly kernel_size dilated
steps are produced whenever the axis is long enough, all computed inside the
sub-problem induced by index mod dilation; the causal window starts at
max(0, index - kernel_size + 1) stepped by dilation. -/
def get_window_start (index length kernel_size neighborhood_size dilation : ℤ)
    (is_causal : Bool) : ℤ :=
  if is_causal then
    (max (index / dilation - kernel_size + 1) 0) * dilation + index % dilation
  else
    let r := index % dilation
    let subLen := (length - r + dilation - 1) / dilation
    (max 0 (min (index / dilation - neighborhood_size) (subLen - kernel_size))) * dilation + r

/-- Modelled from the spec: get_window_end from natten_cpu_commons.h (not among
the provided sources).  Spec 4.1: the causal window ends at index + 1
(exclusive); the non-causal window ends kernel_size dilated steps after the
start, clipped to the axis length. -/
def get_window_end (index start_index length kernel_size neighborhood_size dilation : ℤ)
    (is_causal : Bool) : ℤ :=
  if is_causal then index + 1
  else min length (start_index + kernel_size * dilation)

/-- Number of iterations of the C loop
for (xi = ni; xi < ei; xi += dilation), i.e. the number of dilated steps in
the half-open range [ni, ei), for a positive dilation. -/
def loopCount (ni ei dilation : ℤ) : ℕ :=
  ((ei - ni + dilation - 1) / dilation).toNat

/-- The inner accumulation loop of NeighborhoodNeighborhood1D::launch
(lines 129-133 of the source): starting from acc, repeatedly do
acc := add acc (mul (weights attnOffset) (values (valuesOffset + xi * vs2)))
while advancing attnOffset by one and xi by dilation, for the given number of
iterations.  add / mul are the scalar type's operations. -/
def accLoopGen {α : Type} (add mul : α → α → α) (weights values : ℤ → α)
    (valuesOffset vs2 dilation : ℤ) : ℕ → ℤ → ℤ → α → α
  | 0, _, _, acc => acc
  | n + 1, attnOffset, xi, acc =>
      accLoopGen add mul weights values valuesOffset vs2 dilation n
        (attnOffset + 1) (xi + dilation)
        (add acc (mul (weights attnOffset) (values (valuesOffset + xi * vs2))))

/-- The per-output-element computation of the kernel (lines 107-136 of the
source), with explicit strides for both the weights tensor and the values
tensor: compute the window via get_window_start / get_window_end with
neighborhood_size = kernel_size / 2, then run the inner accumulation loop
from the scalar zero. -/
def computeOutputElemS {α : Type} (add mul : α → α → α) (zero : α)
    (weights values : ℤ → α) (length kernel_size dilation : ℤ) (is_causal : Bool)
    (ws0 ws1 ws2 vs0 vs1 vs2 : ℤ) (b h i d : ℤ) : α :=
  let neighborhood_size := kernel_size / 2
  let ni := get_window_start i length kernel_size neighborhood_size dilation is_causal
  let ei := get_window_end i ni length kernel_size neighborhood_size dilation is_causal
  accLoopGen add mul weights values (b * vs0 + h * vs1 + d) vs2 dilation
    (loopCount ni ei dilation) (b * ws0 + h * ws1 + i * ws2) ni zero

/-- The loop-nest index tuples (b, h, i, d) of the kernel, in the order the
sequentialized loop nest visits them (batch outermost, then heads - the
parallel_for axis - then spatial position, then channel). -/
def aggTuples (batch heads length dim : ℤ) : List (ℕ × ℕ × ℕ × ℕ) :=
  (List.range batch.toNat).flatMap fun b =>
    (List.range heads.toNat).flatMap fun h =>
      (List.range length.toNat).flatMap fun i =>
        (List.range dim.toNat).map fun d => (b, h, i, d)

/-- The linear address of output element (b, h, i, d) under strides
(s0, s1, s2) with innermost stride one, as in line 134-135 of the source. -/
def outLinearIndex (s0 s1 s2 : ℤ) (q : ℕ × ℕ × ℕ × ℕ) : ℤ :=
  (q.1 : ℤ) * s0 + (q.2.1 : ℤ) * s1 + (q.2.2.1 : ℤ) * s2 + (q.2.2.2 : ℤ)

/-- The ordered list of (address, value) stores performed by a loop nest that
writes elemF b h i d at address outIdx (b, h, i, d) for every index tuple. -/
def writesOf {α : Type} (elemF : ℤ → ℤ → ℤ → ℤ → α)
    (outIdx : ℕ × ℕ × ℕ × ℕ → ℤ) (batch heads length dim : ℤ) : List (ℤ × α) :=
  (aggTuples batch heads length dim).map fun q =>
    (outIdx q, elemF (q.1 : ℤ) (q.2.1 : ℤ) (q.2.2.1 : ℤ) (q.2.2.2 : ℤ))

/-- A single store output[p.1] = p.2 into a flat buffer. -/
def store {α : Type} (m : ℤ → α) (p : ℤ × α) : ℤ → α :=
  fun j => if j = p.1 then p.2 else m j

/-- Execute a list of stores left to right on a flat buffer. -/
def runWrites {α : Type} (m : ℤ → α) (l : List (ℤ × α)) : ℤ → α :=
  l.foldl store m

/-- The list of stores performed by NeighborhoodNeighborhood1D::launch: the
values/output strides are computed internally from the shape exactly as in
lines 101-103 of the source (values_stride_2 = dim,
values_stride_1 = length * values_stride_2,
values_stride_0 = heads * values_stride_1); the weights strides ws0/ws1/ws2
are the caller-supplied attn strides. -/
def launchWrites {α : Type} (add mul : α → α → α) (zero : α)
    (weights values : ℤ → α) (length heads kernel_size dilation dim batch : ℤ)
    (ws0 ws1 ws2 : ℤ) (is_causal : Bool) : List (ℤ × α) :=
  let vs2 := dim
  let vs1 := length * vs2
  let vs0 := heads * vs1
  writesOf
    (fun b h i d =>
      computeOutputElemS add mul zero weights values length kernel_size dilation
        is_causal ws0 ws1 ws2 vs0 vs1 vs2 b h i d)
    (outLinearIndex vs0 vs1 vs2) batch heads length dim

/-- NeighborhoodNeighborhood1D::launch (lines 85-142 of the source):
sequential embedding of the loop nest over (b, h, i, d); returns the output
buffer after all stores. -/
def launch {α : Type} (add mul : α → α → α) (zero : α)
    (weights values output : ℤ → α) (length heads kernel_size dilation dim batch : ℤ)
    (ws0 ws1 ws2 : ℤ) (is_causal : Bool) : ℤ → α :=
  runWrites output
    (launchWrites add mul zero weights values length heads kernel_size dilation
      dim batch ws0 ws1 ws2 is_causal)

/-- Full-memory view of one launch call: the three buffers before and after.
The source kernel's only store statement targets the output buffer
(line 136); weights and values are only ever read. -/
structure Mem1D (α : Type) where
  weights : ℤ → α
  values : ℤ → α
  output : ℤ → α

/-- launch acting on the full memory state: weights and values pass through
untouched, output is rewritten. -/
def launchState {α : Type} (add mul : α → α → α) (zero : α)
    (length heads kernel_size dilation dim batch : ℤ) (ws0 ws1 ws2 : ℤ)
    (is_causal : Bool) (st : Mem1D α) : Mem1D α :=
  { weights := st.weights
    values := st.values
    output := launch add mul zero st.weights st.values st.output length heads
      kernel_size dilation dim batch ws0 ws1 ws2 is_causal }

/-- The grain-size constant passed to at::parallel_for, a compile-time macro
(line 49 of the source). -/
def GRAIN_SIZE : ℤ := 0

/-- One invocation of at::parallel_for: the half-open index range and the
grain size it was given. -/
structure ParallelForCall where
  lo : ℤ
  hi : ℤ
  grain : ℤ
  deriving DecidableEq

/-- The argument list of NeighborhoodNeighborhood1D::operator() (lines 55-68
of the source).  Note that it carries no grain-size field. -/
structure NN1DArgs (α : Type) where
  attn : ℤ → α
  value : ℤ → α
  output : ℤ → α
  batch_size : ℤ
  heads : ℤ
  length : ℤ
  dim : ℤ
  attn_stride_0 : ℤ
  attn_stride_1 : ℤ
  attn_stride_2 : ℤ
  kernel_size : ℤ
  dilation : ℤ
  is_causal : Bool

/-- The sequence of at::parallel_for invocations a call performs: one per
batch iteration, each over [0, heads) with grain GRAIN_SIZE (lines 104-105
of the source). -/
def parallelForCalls {α : Type} (a : NN1DArgs α) : List ParallelForCall :=
  (List.range a.batch_size.toNat).map fun _ =>
    { lo := 0, hi := a.heads, grain := GRAIN_SIZE }

/-- Scalar model for the accumulation-precision claim: an element type with
its (possibly rounding) operations, plus an extended-precision accumulator
type with its operations and the casts between the two. -/
structure AccModel (α β : Type) where
  elemAdd : α → α → α
  elemMul : α → α → α
  elemZero : α
  accAdd : β → β → β
  accMul : β → β → β
  accZero : β
  toAcc : α → β
  ofAcc : β → α

/-- Modelled from the spec: the per-element computation the spec describes in
section 4.2 (accumulation in the numeric type's extended-precision
accumulator when the element type is narrow, output cast back to the element
type only on the final store): operands are widened to the accumulator type,
the inner loop adds and multiplies in the accumulator type, and the result is
narrowed once at the end. -/
def computeOutputElemAcc {α β : Type} (M : AccModel α β)
    (weights values : ℤ → α) (length kernel_size dilation : ℤ) (is_causal : Bool)
    (ws0 ws1 ws2 vs0 vs1 vs2 : ℤ) (b h i d : ℤ) : α :=
  let neighborhood_size := kernel_size / 2
  let ni := get_window_start i length kernel_size neighborhood_size dilation is_causal
  let ei := get_window_end i ni length kernel_size neighborhood_size dilation is_causal
  M.ofAcc
    (accLoopGen M.accAdd M.accMul (fun j => M.toAcc (weights j))
      (fun j => M.toAcc (values j)) (b * vs0 + h * vs1 + d) vs2 dilation
      (loopCount ni ei dilation) (b * ws0 + h * ws1 + i * ws2) ni M.accZero)

/-- Modelled from the spec: the whole aggregation pass with the
extended-precision accumulation policy of spec section 4.2, otherwise
identical to launch. -/
def launchAcc {α β : Type} (M : AccModel α β)
    (weights values output : ℤ → α) (length heads kernel_size dilation dim batch : ℤ)
    (ws0 ws1 ws2 : ℤ) (is_causal : Bool) : ℤ → α :=
  let vs2 := dim
  let vs1 := length * vs2
  let vs0 := heads * vs1
  runWrites output
    (writesOf
      (fun b h i d =>
        computeOutputElemAcc M weights values length kernel_size dilation
          is_causal ws0 ws1 ws2 vs0 vs1 vs2 b h i d)
      (outLinearIndex vs0 vs1 vs2) batch heads length dim)

/-- Modelled from the spec: the aggregation pass with fully caller-supplied
strided addressing for all three tensors (spec section 4.2 demands direct
memory addressing that is strided, not contiguous-assumed): the values tensor
is read at strides (vs0, vs1, vs2) and the output tensor is written at
strides (os0, os1, os2), both supplied by the caller. -/
def launchAllStrided {α : Type} (add mul : α → α → α) (zero : α)
    (weights values output : ℤ → α) (length heads kernel_size dilation dim batch : ℤ)
    (ws0 ws1 ws2 vs0 vs1 vs2 os0 os1 os2 : ℤ) (is_causal : Bool) : ℤ → α :=
  runWrites output
    (writesOf
      (fun b h i d =>
        computeOutputElemS add mul zero weights values length kernel_size dilation
          is_causal ws0 ws1 ws2 vs0 vs1 vs2 b h i d)
      (outLinearIndex os0 os1 os2) batch heads length dim)

/-- Toy low-precision rounding used to witness that element-type arithmetic
and extended-precision accumulation disagree: values of magnitude at most
four are exact, anything larger is rounded down to an even value (a stand-in
for a short-significand floating format losing its last bit). -/
def rnd4 (x : ℤ) : ℤ := if -4 ≤ x ∧ x ≤ 4 then x else (x / 2) * 2

/-- Addition of the toy narrow element type: exact addition followed by
rounding. -/
def addN (a b : ℤ) : ℤ := rnd4 (a + b)

/-- Multiplication of the toy narrow element type: exact multiplication
followed by rounding. -/
def mulN (a b : ℤ) : ℤ := rnd4 (a * b)

/-- The toy narrow element type together with an exact (wide) accumulator:
widening is the identity on the representable values, narrowing rounds. -/
def toyAccModel : AccModel ℤ ℤ :=
  { elemAdd := addN, elemMul := mulN, elemZero := 0
    accAdd := fun a b => a + b, accMul := fun a b => a * b, accZero := 0
    toAcc := id, ofAcc := rnd4 }

lemma runWrites_nil {α : Type} (m : ℤ → α) : runWrites m [] = m := rfl

lemma runWrites_cons {α : Type} (m : ℤ → α) (p : ℤ × α) (l : List (ℤ × α)) :
    runWrites m (p :: l) = runWrites (store m p) l := rfl

/-- A buffer cell whose address is hit by no store in the list is unchanged. -/
lemma runWrites_of_ne {α : Type} (l : List (ℤ × α)) (m : ℤ → α) (k : ℤ)
    (h : ∀ p ∈ l, p.1 ≠ k) : runWrites m l k = m k := by
  induction l generalizing m with
  | nil => rfl
  | cons p t ih =>
    rw [runWrites_cons, ih _ (fun q hq => h q (List.mem_cons_of_mem _ hq))]
    simp [store, Ne.symm (h p (List.mem_cons_self p t))]

/-- Reading back a written cell: if every store that hits the address of q
stores the value of q, then after the whole write list that address holds the
value of q. -/
lemma runWrites_read {α κ : Type} (key : κ → ℤ) (val : κ → α) :
    ∀ (l : List κ) (m : ℤ → α) (q : κ), q ∈ l →
      (∀ p ∈ l, key p = key q → val p = val q) →
      runWrites m (l.map fun x => (key x, val x)) (key q) = val q := by
  intro l
  induction l with
  | nil => intro m q hq _; exact absurd hq (List.not_mem_nil q)
  | cons x t ih =>
    intro m q hq hcond
    rw [List.map_cons, runWrites_cons]
    by_cases hex : ∃ a ∈ t, key a = key q
    · obtain ⟨a, ha, hk⟩ := hex
      have hcond2 : ∀ p ∈ t, key p = key a → val p = val a := by
        intro p hp hpk
        rw [hcond p (List.mem_cons_of_mem _ hp) (hpk.trans hk),
          hcond a (List.mem_cons_of_mem _ ha) hk]
      calc runWrites (store m (key x, val x)) (t.map fun y => (key y, val y)) (key q)
          = runWrites (store m (key x, val x)) (t.map fun y => (key y, val y)) (key a) := by
            rw [hk]
        _ = val a := ih _ a ha hcond2
        _ = val q := hcond a (List.mem_cons_of_mem _ ha) hk
    · push_neg at hex
      have hnot : ∀ p ∈ (t.map fun y => (key y, val y)), p.1 ≠ key q := by
        intro p hp
        obtain ⟨a, ha, rfl⟩ := List.mem_map.mp hp
        exact hex a ha
      rw [runWrites_of_ne _ _ _ hnot]
      rcases List.mem_cons.mp hq with h | h
      · subst h; simp [store]
      · exact absurd rfl (hex q h)

/-- The value a written address ends up with does not depend on the initial
buffer contents. -/
lemma runWrites_indep {α : Type} (l : List (ℤ × α)) (k : ℤ)
    (hk : k ∈ l.map Prod.fst) (m1 m2 : ℤ → α) :
    runWrites m1 l k = runWrites m2 l k := by
  induction l generalizing m1 m2 with
  | nil => simp at hk
  | cons p t ih =>
    rw [runWrites_cons, runWrites_cons]
    by_cases h : k ∈ t.map Prod.fst
    · exact ih h _ _
    · have hkp : k = p.1 := by
        rw [List.map_cons] at hk
        rcases List.mem_cons.mp hk with h2 | h2
        · exact h2
        · exact absurd h2 h
      have hne : ∀ q ∈ t, q.1 ≠ k := by
        intro q hq he
        exact h (List.mem_map.mpr ⟨q, hq, he⟩)
      rw [runWrites_of_ne _ _ _ hne, runWrites_of_ne _ _ _ hne]
      simp [store, hkp]

/-- Stores at pairwise distinct addresses commute: any permutation of a write
list with no-duplicate addresses yields the same final buffer. -/
lemma runWrites_perm {α : Type} {l l2 : List (ℤ × α)} (hp : l.Perm l2) :
    ∀ (m : ℤ → α), (l.map Prod.fst).Nodup → runWrites m l = runWrites m l2 := by
  induction hp with
  | nil => intro m _; rfl
  | cons x hpt ih =>
    intro m hnd
    rw [runWrites_cons, runWrites_cons]
    refine ih _ ?_
    simp only [List.map_cons, List.nodup_cons] at hnd
    exact hnd.2
  | swap x y t =>
    intro m hnd
    simp only [List.map_cons, List.nodup_cons, List.mem_cons] at hnd
    have hyx : y.1 ≠ x.1 := fun he => hnd.1 (Or.inl he)
    rw [runWrites_cons, runWrites_cons, runWrites_cons, runWrites_cons]
    have hss : store (store m y) x = store (store m x) y := by
      funext j
      simp only [store]
      by_cases h1 : j = x.1
      · by_cases h2 : j = y.1
        · exact absurd (h2.symm.trans h1) hyx
        · simp [h1, h2, hyx, Ne.symm hyx]
      · by_cases h2 : j = y.1 <;> simp [h1, h2, hyx, Ne.symm hyx]
    rw [hss]
  | trans hp1 hp2 ih1 ih2 =>
    intro m hnd
    rw [ih1 m hnd]
    refine ih2 m ?_
    exact (hp1.map Prod.fst).nodup hnd

/-- Splitting a mixed-radix digit: quotient and remainder with respect to a
positive radix are determined by the combined value. -/
lemma radix_split (a a2 r r2 N : ℤ) (hr : 0 ≤ r) (hrN : r < N) (hr2 : 0 ≤ r2)
    (hrN2 : r2 < N) (h : a * N + r = a2 * N + r2) : a = a2 ∧ r = r2 := by
  have hN : 0 < N := lt_of_le_of_lt hr hrN
  have key : (a - a2) * N = r2 - r := by linear_combination h
  have ha : a = a2 := by
    by_contra hne
    rcases lt_or_gt_of_ne hne with hlt | hgt
    · have h2 : (a - a2) * N ≤ (-1) * N :=
        mul_le_mul_of_nonneg_right (by linarith) hN.le
      linarith
    · have h2 : (1 : ℤ) * N ≤ (a - a2) * N :=
        mul_le_mul_of_nonneg_right (by linarith) hN.le
      linarith
  refine ⟨ha, ?_⟩
  have h0 : (0 : ℤ) * N = r2 - r := by rw [← key, ha]; ring
  linarith [h0]

/-- Bounding a mixed-radix combination. -/
lemma radix_bound (a r A N : ℤ) (ha0 : 0 ≤ a) (haA : a < A) (hr0 : 0 ≤ r)
    (hrN : r < N) : 0 ≤ a * N + r ∧ a * N + r < A * N := by
  have hN : 0 < N := lt_of_le_of_lt hr0 hrN
  constructor
  · have := mul_nonneg ha0 hN.le
    linarith
  · have h1 : a * N ≤ (A - 1) * N :=
      mul_le_mul_of_nonneg_right (by linarith) hN.le
    have h2 : (A - 1) * N + N = A * N := by ring
    linarith

/-- loopCount counts exactly the dilated steps below the exclusive end: step
t is taken if and only if ni + t * dilation is still below ei. -/
lemma loopCount_spec (ni ei D : ℤ) (hD : 0 < D) (t : ℕ) :
    ni + (t : ℤ) * D < ei ↔ t < loopCount ni ei D := by
  unfold loopCount
  have hdm := Int.ediv_add_emod (ei - ni + D - 1) D
  have hr0 : 0 ≤ (ei - ni + D - 1) % D := Int.emod_nonneg _ (ne_of_gt hD)
  have hrD : (ei - ni + D - 1) % D < D := Int.emod_lt_of_pos _ hD
  set q := (ei - ni + D - 1) / D with hq
  set r := (ei - ni + D - 1) % D with hr
  constructor
  · intro h
    have h2 : (t : ℤ) * D < D * q := by linarith
    have h3 : (t : ℤ) < q := by
      by_contra hc
      push_neg at hc
      have h4 : D * q ≤ D * (t : ℤ) := mul_le_mul_of_nonneg_left hc hD.le
      have h5 : D * (t : ℤ) = (t : ℤ) * D := mul_comm _ _
      linarith
    exact Int.lt_toNat.mpr h3
  · intro h
    have h3 : (t : ℤ) < q := Int.lt_toNat.mp h
    have h4 : ((t : ℤ) + 1) * D ≤ q * D :=
      mul_le_mul_of_nonneg_right (by linarith) hD.le
    have h5 : q * D = D * q := mul_comm _ _
    have h6 : ((t : ℤ) + 1) * D = (t : ℤ) * D + D := by ring
    linarith

/-- The inner loop instantiated with ring operations computes the finite sum
of the weight-value products along the window. -/
lemma accLoopGen_sum {α : Type} [CommRing α] (w v : ℤ → α) (vOff vs2 D : ℤ) :
    ∀ (n : ℕ) (ao xi : ℤ) (acc : α),
      accLoopGen (fun a b => a + b) (fun a b => a * b) w v vOff vs2 D n ao xi acc
        = acc + ∑ t ∈ Finset.range n,
            w (ao + (t : ℤ)) * v (vOff + (xi + (t : ℤ) * D) * vs2) := by
  intro n
  induction n with
  | zero => intro ao xi acc; simp [accLoopGen]
  | succ n ih =>
    intro ao xi acc
    simp only [accLoopGen]
    rw [ih, Finset.sum_range_succ']
    have hcong : ∀ t ∈ Finset.range n,
        w ((ao + 1) + (t : ℤ)) * v (vOff + ((xi + D) + (t : ℤ) * D) * vs2)
          = w (ao + ((t + 1 : ℕ) : ℤ)) * v (vOff + (xi + ((t + 1 : ℕ) : ℤ) * D) * vs2) := by
      intro t _
      have e1 : (ao + 1) + (t : ℤ) = ao + ((t + 1 : ℕ) : ℤ) := by push_cast; ring
      have e2 : vOff + ((xi + D) + (t : ℤ) * D) * vs2
          = vOff + (xi + ((t + 1 : ℕ) : ℤ) * D) * vs2 := by push_cast; ring
      rw [e1, e2]
    rw [Finset.sum_congr rfl hcong]
    have e3 : ao + ((0 : ℕ) : ℤ) = ao := by push_cast; ring
    have e4 : vOff + (xi + ((0 : ℕ) : ℤ) * D) * vs2 = vOff + xi * vs2 := by push_cast; ring
    rw [e3, e4]
    ring

/-- A flat map over an index range is duplicate-free when each block is and
different indices produce disjoint blocks. -/
lemma nodup_range_flatMap {κ : Type} (n : ℕ) (f : ℕ → List κ)
    (h1 : ∀ a, a < n → (f a).Nodup)
    (h2 : ∀ a b, a < n → b < n → a ≠ b → ∀ c, c ∈ f a → c ∉ f b) :
    ((List.range n).flatMap f).Nodup := by
  induction n with
  | zero => simp
  | succ k ih =>
    rw [List.range_succ, List.flatMap_append]
    refine List.Nodup.append ?_ ?_ ?_
    · exact ih (fun a ha => h1 a (Nat.lt_succ_of_lt ha))
        (fun a b ha hb => h2 a b (Nat.lt_succ_of_lt ha) (Nat.lt_succ_of_lt hb))
    · simpa using h1 k (Nat.lt_succ_self k)
    · intro c hc hc2
      rw [List.mem_flatMap] at hc
      obtain ⟨a, ha, hca⟩ := hc
      rw [List.mem_range] at ha
      have hck : c ∈ f k := by simpa using hc2
      exact h2 a k (Nat.lt_succ_of_lt ha) (Nat.lt_succ_self k) (Nat.ne_of_lt ha) c hca hck

/-- Membership in the loop-nest tuple list is exactly componentwise range
membership. -/
lemma mem_aggTuples {batch heads length dim : ℤ} {q : ℕ × ℕ × ℕ × ℕ} :
    q ∈ aggTuples batch heads length dim ↔
      q.1 < batch.toNat ∧ q.2.1 < heads.toNat ∧ q.2.2.1 < length.toNat
        ∧ q.2.2.2 < dim.toNat := by
  obtain ⟨b, h, i, d⟩ := q
  simp [aggTuples]
  aesop

/-- Componentwise integer bounds for a loop-nest tuple. -/
lemma aggTuples_bounds {batch heads length dim : ℤ} {q : ℕ × ℕ × ℕ × ℕ}
    (hq : q ∈ aggTuples batch heads length dim) :
    (0 ≤ (q.1 : ℤ) ∧ (q.1 : ℤ) < batch) ∧ (0 ≤ (q.2.1 : ℤ) ∧ (q.2.1 : ℤ) < heads)
      ∧ (0 ≤ (q.2.2.1 : ℤ) ∧ (q.2.2.1 : ℤ) < length)
      ∧ (0 ≤ (q.2.2.2 : ℤ) ∧ (q.2.2.2 : ℤ) < dim) := by
  rw [mem_aggTuples] at hq
  omega

/-- The output address map with the kernel's internally computed contiguous
strides in nested mixed-radix form. -/
lemma outLinearIndex_radix (heads length dim : ℤ) (p : ℕ × ℕ × ℕ × ℕ) :
    outLinearIndex (heads * (length * dim)) (length * dim) dim p
      = (((p.1 : ℤ) * heads + (p.2.1 : ℤ)) * length + (p.2.2.1 : ℤ)) * dim
          + (p.2.2.2 : ℤ) := by
  unfold outLinearIndex; ring

/-- Distinct loop-nest tuples are mapped to distinct output addresses by the
contiguous-stride address map. -/
lemma outLinearIndex_inj {batch heads length dim : ℤ} {q q2 : ℕ × ℕ × ℕ × ℕ}
    (hq : q ∈ aggTuples batch heads length dim)
    (hq2 : q2 ∈ aggTuples batch heads length dim)
    (h : outLinearIndex (heads * (length * dim)) (length * dim) dim q
       = outLinearIndex (heads * (length * dim)) (length * dim) dim q2) :
    q = q2 := by
  obtain ⟨⟨hb0, hbB⟩, ⟨hh0, hhH⟩, ⟨hi0, hiL⟩, ⟨hd0, hdD⟩⟩ := aggTuples_bounds hq
  obtain ⟨⟨hb02, hbB2⟩, ⟨hh02, hhH2⟩, ⟨hi02, hiL2⟩, ⟨hd02, hdD2⟩⟩ := aggTuples_bounds hq2
  rw [outLinearIndex_radix, outLinearIndex_radix] at h
  have s1 := radix_split _ _ _ _ _ hd0 hdD hd02 hdD2 h
  have s2 := radix_split _ _ _ _ _ hi0 hiL hi02 hiL2 s1.1
  have s3 := radix_split _ _ _ _ _ hh0 hhH hh02 hhH2 s2.1
  obtain ⟨b, h1, i1, d1⟩ := q
  obtain ⟨b2, h2, i2, d2⟩ := q2
  simp only at s1 s2 s3
  have eb : b = b2 := by exact_mod_cast s3.1
  have eh : h1 = h2 := by exact_mod_cast s3.2
  have ei : i1 = i2 := by exact_mod_cast s2.2
  have ed : d1 = d2 := by exact_mod_cast s1.2
  simp [eb, eh, ei, ed]

/-- The window start returned by the geometry is never negative (for a
positive dilation and a nonnegative query index). -/
lemma get_window_start_nonneg (i L K nbh D : ℤ) (hi : 0 ≤ i) (hD : 0 < D)
    (c : Bool) : 0 ≤ get_window_start i L K nbh D c := by
  have hmod : 0 ≤ i % D := Int.emod_nonneg i (ne_of_gt hD)
  cases c with
  | false =>
    simp only [get_window_start, Bool.false_eq_true, if_false]
    have h1 : 0 ≤ max 0 (min (i / D - nbh) ((L - i % D + D - 1) / D - K)) :=
      le_max_left 0 _
    have h2 : 0 ≤ max 0 (min (i / D - nbh) ((L - i % D + D - 1) / D - K)) * D :=
      mul_nonneg h1 hD.le
    linarith
  | true =>
    simp only [get_window_start, if_true]
    have h1 : 0 ≤ max (i / D - K + 1) 0 := le_max_right _ 0
    have h2 : 0 ≤ max (i / D - K + 1) 0 * D := mul_nonneg h1 hD.le
    linarith

/-- The window end returned by the geometry never exceeds the axis length
(for a query index inside the axis). -/
lemma get_window_end_le (i ni L K nbh D : ℤ) (hiL : i < L) (c : Bool) :
    get_window_end i ni L K nbh D c ≤ L := by
  cases c with
  | false =>
    simp only [get_window_end, Bool.false_eq_true, if_false]
    exact min_le_left _ _
  | true =>
    simp only [get_window_end, if_true]
    linarith

/-- The per-element computation with ring operations equals the finite sum of
weight-value products over the window, with the weight index running
consecutively from the flattened window offset zero of the query row. -/
lemma computeOutputElemS_sum {α : Type} [CommRing α] (w v : ℤ → α)
    (L K D : ℤ) (c : Bool) (ws0 ws1 ws2 vs0 vs1 vs2 b h i d : ℤ) :
    computeOutputElemS (fun a b => a + b) (fun a b => a * b) (0 : α) w v L K D c
        ws0 ws1 ws2 vs0 vs1 vs2 b h i d
      = ∑ t ∈ Finset.range (loopCount
            (get_window_start i L K (K / 2) D c)
            (get_window_end i (get_window_start i L K (K / 2) D c) L K (K / 2) D c)
            D),
          w (b * ws0 + h * ws1 + i * ws2 + (t : ℤ))
            * v (b * vs0 + h * vs1
                  + (get_window_start i L K (K / 2) D c + (t : ℤ) * D) * vs2 + d) := by
  simp only [computeOutputElemS]
  rw [accLoopGen_sum, zero_add]
  refine Finset.sum_congr rfl fun t _ => ?_
  have e2 : b * vs0 + h * vs1 + d
        + (get_window_start i L K (K / 2) D c + (t : ℤ) * D) * vs2
      = b * vs0 + h * vs1
        + (get_window_start i L K (K / 2) D c + (t : ℤ) * D) * vs2 + d := by ring
  rw [e2]

/-- The loop-nest tuple list contains no duplicates. -/
lemma aggTuples_nodup (batch heads length dim : ℤ) :
    (aggTuples batch heads length dim).Nodup := by
  unfold aggTuples
  refine nodup_range_flatMap _ _ (fun b hb => ?_) ?_
  · refine nodup_range_flatMap _ _ (fun h hh => ?_) ?_
    · refine nodup_range_flatMap _ _ (fun i hi => ?_) ?_
      · refine List.Nodup.map ?_ (List.nodup_range _)
        intro d1 d2 he
        simpa using he
      · intro i1 i2 _ _ hne c hc1 hc2
        simp only [List.mem_map, List.mem_range] at hc1 hc2
        obtain ⟨d1, _, rfl⟩ := hc1
        obtain ⟨d2, _, he⟩ := hc2
        simp only [Prod.mk.injEq] at he
        exact hne he.2.2.1.symm
    · intro h1 h2 _ _ hne c hc1 hc2
      simp only [List.mem_flatMap, List.mem_map, List.mem_range] at hc1 hc2
      obtain ⟨i1, _, d1, _, rfl⟩ := hc1
      obtain ⟨i2, _, d2, _, he⟩ := hc2
      simp only [Prod.mk.injEq] at he
      exact hne he.2.1.symm
  · intro b1 b2 _ _ hne c hc1 hc2
    simp only [List.mem_flatMap, List.mem_map, List.mem_range] at hc1 hc2
    obtain ⟨h1, _, i1, _, d1, _, rfl⟩ := hc1
    obtain ⟨h2, _, i2, _, d2, _, he⟩ := hc2
    simp only [Prod.mk.injEq] at he
    exact hne he.1.symm

/-- The addresses stored to by one launch call are exactly the
contiguous-stride output region addresses of the loop-nest tuples; each is
nonnegative and below batch * heads * length * dim. -/
lemma launchWrites_key_range {α : Type} (add mul : α → α → α) (z : α)
    (w v : ℤ → α) (L H K D Dm B ws0 ws1 ws2 : ℤ) (c : Bool) (p : ℤ × α)
    (hp : p ∈ launchWrites add mul z w v L H K D Dm B ws0 ws1 ws2 c) :
    0 ≤ p.1 ∧ p.1 < B * (H * (L * Dm)) := by
  unfold launchWrites writesOf at hp
  obtain ⟨q, hq, rfl⟩ := List.mem_map.mp hp
  obtain ⟨⟨hb0, hbB⟩, ⟨hh0, hhH⟩, ⟨hi0, hiL⟩, ⟨hd0, hdD⟩⟩ := aggTuples_bounds hq
  have r1 := radix_bound ((q.2.2.1 : ℕ) : ℤ) ((q.2.2.2 : ℕ) : ℤ) L Dm hi0 hiL hd0 hdD
  have r2 := radix_bound ((q.2.1 : ℕ) : ℤ) _ H (L * Dm) hh0 hhH r1.1 r1.2
  have r3 := radix_bound ((q.1 : ℕ) : ℤ) _ B (H * (L * Dm)) hb0 hbB r2.1 r2.2
  have e : (outLinearIndex (H * (L * Dm)) (L * Dm) Dm q,
        computeOutputElemS add mul z w v L K D c ws0 ws1 ws2 (H * (L * Dm)) (L * Dm) Dm
          ((q.1 : ℕ) : ℤ) ((q.2.1 : ℕ) : ℤ) ((q.2.2.1 : ℕ) : ℤ) ((q.2.2.2 : ℕ) : ℤ)).1
      = ((q.1 : ℕ) : ℤ) * (H * (L * Dm))
        + (((q.2.1 : ℕ) : ℤ) * (L * Dm) + (((q.2.2.1 : ℕ) : ℤ) * Dm + ((q.2.2.2 : ℕ) : ℤ))) := by
    simp only [outLinearIndex]
    ring
  rw [e]
  exact r3

/-- C1: for every validated input and every output element (b, h, i, d), the
1D aggregate operation stores the sum over the visited window of
weights[b,h,i,k] times values[b,h,neighbor(i,k),d], where neighbor(i,k) is
window_start(i) + k * dilation, the window runs up to but excluding
window_end(i), and the k-th visited neighbor consumes the k-th consecutive
weight of query row (b,h,i) starting at flattened window offset zero. -/
theorem C1_aggregate_output {α : Type} [CommRing α] (w v out : ℤ → α)
    (L H K D Dm B ws0 ws1 ws2 : ℤ) (c : Bool) (b h i d : ℕ)
    (hB : 1 ≤ B) (hH : 1 ≤ H) (hL : 1 ≤ L) (hDm : 1 ≤ Dm)
    (hK : 1 ≤ K) (hKodd : Odd K) (hD : 1 ≤ D)
    (hb : (b : ℤ) < B) (hh : (h : ℤ) < H) (hi : (i : ℤ) < L) (hd : (d : ℤ) < Dm) :
    (∀ t : ℕ,
      (get_window_start (i : ℤ) L K (K / 2) D c + (t : ℤ) * D
          < get_window_end (i : ℤ) (get_window_start (i : ℤ) L K (K / 2) D c) L K (K / 2) D c
        ↔ t < loopCount (get_window_start (i : ℤ) L K (K / 2) D c)
            (get_window_end (i : ℤ) (get_window_start (i : ℤ) L K (K / 2) D c) L K (K / 2) D c) D))
    ∧ launch (fun a b => a + b) (fun a b => a * b) (0 : α) w v out L H K D Dm B
        ws0 ws1 ws2 c
        ((b : ℤ) * (H * (L * Dm)) + (h : ℤ) * (L * Dm) + (i : ℤ) * Dm + (d : ℤ))
      = ∑ t ∈ Finset.range (loopCount (get_window_start (i : ℤ) L K (K / 2) D c)
            (get_window_end (i : ℤ) (get_window_start (i : ℤ) L K (K / 2) D c) L K (K / 2) D c) D),
          w ((b : ℤ) * ws0 + (h : ℤ) * ws1 + (i : ℤ) * ws2 + (t : ℤ))
            * v ((b : ℤ) * (H * (L * Dm)) + (h : ℤ) * (L * Dm)
                  + (get_window_start (i : ℤ) L K (K / 2) D c + (t : ℤ) * D) * Dm + (d : ℤ)) := by
  constructor
  · intro t
    exact loopCount_spec _ _ D (by linarith) t
  · have hmem : ((b, h, i, d) : ℕ × ℕ × ℕ × ℕ) ∈ aggTuples B H L Dm := by
      rw [mem_aggTuples]
      show b < B.toNat ∧ h < H.toNat ∧ i < L.toNat ∧ d < Dm.toNat
      omega
    have hcond : ∀ p ∈ aggTuples B H L Dm,
        outLinearIndex (H * (L * Dm)) (L * Dm) Dm p
            = outLinearIndex (H * (L * Dm)) (L * Dm) Dm (b, h, i, d) →
          (fun q : ℕ × ℕ × ℕ × ℕ =>
              computeOutputElemS (fun a b => a + b) (fun a b => a * b) (0 : α) w v
                L K D c ws0 ws1 ws2 (H * (L * Dm)) (L * Dm) Dm
                ((q.1 : ℕ) : ℤ) ((q.2.1 : ℕ) : ℤ) ((q.2.2.1 : ℕ) : ℤ) ((q.2.2.2 : ℕ) : ℤ)) p
            = (fun q : ℕ × ℕ × ℕ × ℕ =>
              computeOutputElemS (fun a b => a + b) (fun a b => a * b) (0 : α) w v
                L K D c ws0 ws1 ws2 (H * (L * Dm)) (L * Dm) Dm
                ((q.1 : ℕ) : ℤ) ((q.2.1 : ℕ) : ℤ) ((q.2.2.1 : ℕ) : ℤ) ((q.2.2.2 : ℕ) : ℤ)) (b, h, i, d) := by
      intro p hp he
      rw [outLinearIndex_inj hp hmem he]
    have hread := runWrites_read (outLinearIndex (H * (L * Dm)) (L * Dm) Dm)
      (fun q : ℕ × ℕ × ℕ × ℕ =>
        computeOutputElemS (fun a b => a + b) (fun a b => a * b) (0 : α) w v
          L K D c ws0 ws1 ws2 (H * (L * Dm)) (L * Dm) Dm
          ((q.1 : ℕ) : ℤ) ((q.2.1 : ℕ) : ℤ) ((q.2.2.1 : ℕ) : ℤ) ((q.2.2.2 : ℕ) : ℤ))
      (aggTuples B H L Dm) out (b, h, i, d) hmem hcond
    have hsum := computeOutputElemS_sum w v L K D c ws0 ws1 ws2
      (H * (L * Dm)) (L * Dm) Dm (b : ℤ) (h : ℤ) (i : ℤ) (d : ℤ)
    exact hread.trans hsum

/-- C3: for length 5, kernel size 3, dilation 1, non-causal, one batch, one
head, one channel, all weights and values one, the aggregate operation
returns 3 at every position: boundary windows re-center inward and stay
full. -/
theorem C3_noncausal_scenario :
    ([0, 1, 2, 3, 4] : List ℤ).map
        (launch (fun a b => a + b) (fun a b => a * b) (0 : ℤ) (fun _ => 1)
          (fun _ => 1) (fun _ => 0) 5 1 3 1 1 1 15 15 3 false)
      = [3, 3, 3, 3, 3] := by decide

/-- C4: same scenario with the causal flag set: the window grows from width
one until it reaches the kernel size and then stays at that width, so the
outputs are 1, 2, 3, 3, 3. -/
theorem C4_causal_scenario :
    ([0, 1, 2, 3, 4] : List ℤ).map
        (launch (fun a b => a + b) (fun a b => a * b) (0 : ℤ) (fun _ => 1)
          (fun _ => 1) (fun _ => 0) 5 1 3 1 1 1 15 15 3 true)
      = [1, 2, 3, 3, 3] := by decide

/-- C5: the causal window starts at max(0, i - kernel_size + 1) stepped by
dilation (literally so for dilation one), ends exclusively at i + 1, and no
visited neighbor index exceeds the query position i. -/
theorem C5_causal_window (i L K D : ℤ) (hi0 : 0 ≤ i) (hiL : i < L)
    (hK : 1 ≤ K) (hKodd : Odd K) (hD : 1 ≤ D) :
    get_window_start i L K (K / 2) D true
        = max (i / D - K + 1) 0 * D + i % D
    ∧ get_window_end i (get_window_start i L K (K / 2) D true) L K (K / 2) D true
        = i + 1
    ∧ (D = 1 → get_window_start i L K (K / 2) D true = max (i - K + 1) 0)
    ∧ ∀ t : ℕ, t < loopCount (get_window_start i L K (K / 2) D true)
          (get_window_end i (get_window_start i L K (K / 2) D true) L K (K / 2) D true) D →
        get_window_start i L K (K / 2) D true + (t : ℤ) * D ≤ i := by
  refine ⟨by simp [get_window_start], by simp [get_window_end], ?_, ?_⟩
  · intro hD1
    subst hD1
    simp [get_window_start]
  · intro t ht
    have hlt := (loopCount_spec _ _ D (by linarith) t).mpr ht
    have hend : get_window_end i (get_window_start i L K (K / 2) D true) L K (K / 2) D true
        = i + 1 := by simp [get_window_end]
    rw [hend] at hlt
    linarith

/-- C6: every neighbor index visited by the aggregation loop lies in [0, L),
and consequently every read of the (contiguous, internally addressed) values
buffer lies in [0, batch * heads * length * dim). -/
theorem C6_reads_in_bounds (L K D i : ℤ) (c : Bool) (hi0 : 0 ≤ i) (hiL : i < L)
    (hK : 1 ≤ K) (hKodd : Odd K) (hD : 1 ≤ D) :
    (∀ t : ℕ, t < loopCount (get_window_start i L K (K / 2) D c)
          (get_window_end i (get_window_start i L K (K / 2) D c) L K (K / 2) D c) D →
        0 ≤ get_window_start i L K (K / 2) D c + (t : ℤ) * D
          ∧ get_window_start i L K (K / 2) D c + (t : ℤ) * D < L)
    ∧ ∀ B H Dm b h d xi : ℤ, 0 ≤ b → b < B → 0 ≤ h → h < H → 0 ≤ d → d < Dm →
        0 ≤ xi → xi < L →
        0 ≤ b * (H * (L * Dm)) + h * (L * Dm) + xi * Dm + d
          ∧ b * (H * (L * Dm)) + h * (L * Dm) + xi * Dm + d < B * (H * (L * Dm)) := by
  constructor
  · intro t ht
    have hlt := (loopCount_spec _ _ D (by linarith) t).mpr ht
    have hstart := get_window_start_nonneg i L K (K / 2) D hi0 (by linarith) c
    have hend := get_window_end_le i (get_window_start i L K (K / 2) D c) L K (K / 2) D hiL c
    have htD : 0 ≤ (t : ℤ) * D := mul_nonneg (Int.natCast_nonneg t) (by linarith)
    exact ⟨by linarith, by linarith⟩
  · intro B H Dm b h d xi hb0 hbB hh0 hhH hd0 hdD hxi0 hxiL
    have r1 := radix_bound xi d L Dm hxi0 hxiL hd0 hdD
    have r2 := radix_bound h _ H (L * Dm) hh0 hhH r1.1 r1.2
    have r3 := radix_bound b _ B (H * (L * Dm)) hb0 hbB r2.1 r2.2
    have e : b * (H * (L * Dm)) + h * (L * Dm) + xi * Dm + d
        = b * (H * (L * Dm)) + (h * (L * Dm) + (xi * Dm + d)) := by ring
    rw [e]
    exact r3

/-- C2 counterexample: with a toy narrow element type (rounding arithmetic
addN / mulN) and an exact wide accumulator, the kernel as written (which
accumulates in the element type, line 124 of the source declares the
accumulator with type scalar_t) produces a different output than the
spec-described extended-precision accumulation at a concrete input. -/
theorem C2_counterexample :
    launch addN mulN (0 : ℤ) (fun _ => 1) (fun j => if j = 0 then 4 else 1)
        (fun _ => 0) 3 1 3 1 1 1 9 9 3 false 1
      ≠ launchAcc toyAccModel (fun _ => 1) (fun j => if j = 0 then 4 else 1)
          (fun _ => 0) 3 1 3 1 1 1 9 9 3 false 1 := by decide

/-- C2 amended: the reference aggregation kernel performs its inner-loop
accumulation directly in the element type scalar_t and stores that
accumulator; it coincides with the extended-precision scheme exactly when
the accumulator type is the element type itself and both casts are the
identity. -/
theorem C2_element_type_accumulator {α : Type} (add mul : α → α → α) (z : α)
    (w v out : ℤ → α) (L H K D Dm B ws0 ws1 ws2 : ℤ) (c : Bool) :
    launch add mul z w v out L H K D Dm B ws0 ws1 ws2 c
      = launchAcc
          { elemAdd := add, elemMul := mul, elemZero := z, accAdd := add,
            accMul := mul, accZero := z, toAcc := id, ofAcc := id }
          w v out L H K D Dm B ws0 ws1 ws2 c := rfl

/-- C7 counterexample: the grain size is not a per-call parameter; no
argument record whatsoever makes the kernel issue a parallel-for with grain
size one. -/
theorem C7_counterexample :
    ¬ ∃ a : NN1DArgs ℤ, ∃ pc ∈ parallelForCalls a, pc.grain = 1 := by
  rintro ⟨a, pc, hmem, hg⟩
  unfold parallelForCalls at hmem
  obtain ⟨n, hn, rfl⟩ := List.mem_map.mp hmem
  simp [GRAIN_SIZE] at hg

/-- C7 amended: every parallel-for the kernel issues runs over [0, heads)
with the fixed compile-time grain size GRAIN_SIZE = 0 (the parallel
runtime's pick-automatically sentinel), one invocation per batch iteration;
the caller cannot choose the grain. -/
theorem C7_grain_size_fixed {α : Type} (a : NN1DArgs α) :
    (∀ pc ∈ parallelForCalls a,
        pc.grain = GRAIN_SIZE ∧ pc.lo = 0 ∧ pc.hi = a.heads)
    ∧ GRAIN_SIZE = 0
    ∧ (parallelForCalls a).length = a.batch_size.toNat := by
  refine ⟨?_, rfl, by simp [parallelForCalls]⟩
  intro pc hmem
  unfold parallelForCalls at hmem
  obtain ⟨n, hn, rfl⟩ := List.mem_map.mp hmem
  exact ⟨rfl, rfl, rfl⟩

/-- Concrete argument record used to witness the amended C7 statement. -/
def sampleArgs : NN1DArgs ℤ :=
  { attn := fun _ => 1, value := fun _ => 1, output := fun _ => 0
    batch_size := 1, heads := 2, length := 3, dim := 1
    attn_stride_0 := 18, attn_stride_1 := 9, attn_stride_2 := 3
    kernel_size := 3, dilation := 1, is_causal := false }

theorem C7_grain_size_fixed_witness :
    ({ lo := 0, hi := 2, grain := 0 } : ParallelForCall) ∈ parallelForCalls sampleArgs
    ∧ ({ lo := 0, hi := 2, grain := 0 } : ParallelForCall).grain = GRAIN_SIZE
    ∧ ({ lo := 0, hi := 2, grain := 0 } : ParallelForCall).lo = 0
    ∧ ({ lo := 0, hi := 2, grain := 0 } : ParallelForCall).hi = sampleArgs.heads :=
  have T := C7_grain_size_fixed sampleArgs
  ⟨by decide, (T.1 _ (by decide)).1, (T.1 _ (by decide)).2.1,
    (T.1 _ (by decide)).2.2⟩

/-- C8 counterexample: the kernel does not honor caller-chosen strides for
the values tensor; at a valid non-contiguous values stride configuration
(row stride three instead of the contiguous two) the fully strided semantics
differs from the kernel at a concrete input. -/
theorem C8_counterexample :
    launch (fun a b => a + b) (fun a b => a * b) (0 : ℤ) (fun _ => 1) (fun j => j)
        (fun _ => 0) 2 1 1 1 2 1 4 4 2 false 2
      ≠ launchAllStrided (fun a b => a + b) (fun a b => a * b) (0 : ℤ) (fun _ => 1)
          (fun j => j) (fun _ => 0) 2 1 1 1 2 1 4 4 2 6 6 3 4 4 2 false 2 := by
  decide

/-- C8 amended: only the weights tensor is addressed with caller-supplied
strides; the values and output tensors are addressed at internally computed
contiguous strides (dim, length * dim, heads * length * dim), i.e. the kernel
coincides with the fully strided semantics exactly at those strides. -/
theorem C8_contiguous_values_output {α : Type} (add mul : α → α → α) (z : α)
    (w v out : ℤ → α) (L H K D Dm B ws0 ws1 ws2 : ℤ) (c : Bool) :
    launch add mul z w v out L H K D Dm B ws0 ws1 ws2 c
      = launchAllStrided add mul z w v out L H K D Dm B ws0 ws1 ws2
          (H * (L * Dm)) (L * Dm) Dm (H * (L * Dm)) (L * Dm) Dm c := rfl

/-- C9: distinct loop-nest tuples write distinct output addresses (each
output element is written exactly once), and the final output buffer is the
same for every order of execution of the per-element writes, i.e. for every
permutation of the kernel's write sequence - which covers every partition of
the heads range into tasks and every task execution order. -/
theorem C9_exclusive_writes {α : Type} (add mul : α → α → α) (z : α)
    (w v out : ℤ → α) (L H K D Dm B ws0 ws1 ws2 : ℤ) (c : Bool) :
    (∀ q ∈ aggTuples B H L Dm, ∀ q2 ∈ aggTuples B H L Dm,
        outLinearIndex (H * (L * Dm)) (L * Dm) Dm q
            = outLinearIndex (H * (L * Dm)) (L * Dm) Dm q2 → q = q2)
    ∧ ∀ l2 : List (ℤ × α),
        l2.Perm (launchWrites add mul z w v L H K D Dm B ws0 ws1 ws2 c) →
        runWrites out l2
          = launch add mul z w v out L H K D Dm B ws0 ws1 ws2 c := by
  constructor
  · intro q hq q2 hq2 he
    exact outLinearIndex_inj hq hq2 he
  · intro l2 hp
    have hnd : ((launchWrites add mul z w v L H K D Dm B ws0 ws1 ws2 c).map
        Prod.fst).Nodup := by
      unfold launchWrites writesOf
      rw [List.map_map]
      refine List.Nodup.map_on ?_ (aggTuples_nodup B H L Dm)
      intro x hx y hy he
      exact outLinearIndex_inj hx hy he
    exact (runWrites_perm hp.symm out hnd).symm

theorem C9_exclusive_writes_witness :
    ((0, 0, 0, 0) : ℕ × ℕ × ℕ × ℕ) ∈ aggTuples 1 1 2 1
    ∧ ((0, 0, 0, 0) : ℕ × ℕ × ℕ × ℕ) = (0, 0, 0, 0)
    ∧ runWrites (fun _ => (0 : ℤ))
        ((launchWrites (fun a b => a + b) (fun a b => a * b) (0 : ℤ) (fun _ => 1)
          (fun _ => 1) 2 1 1 1 1 1 1 1 1 false).reverse)
      = launch (fun a b => a + b) (fun a b => a * b) (0 : ℤ) (fun _ => 1)
          (fun _ => 1) (fun _ => 0) 2 1 1 1 1 1 1 1 1 false :=
  have T := C9_exclusive_writes (fun a b => a + b) (fun a b => a * b) (0 : ℤ)
    (fun _ => 1) (fun _ => 1) (fun _ => 0) 2 1 1 1 1 1 1 1 1 false
  ⟨by decide, T.1 (0, 0, 0, 0) (by decide) (0, 0, 0, 0) (by decide) (by decide),
    T.2 _ (List.reverse_perm _)⟩

/-- C10: a launch call leaves the weights and values buffers unchanged,
writes nothing outside the output region [0, batch * heads * length * dim),
produces written-region contents independent of the output buffer's prior
contents, and running the call a second time on its own result changes
nothing (the engine holds no state across calls). -/
theorem C10_frame_effects {α : Type} (add mul : α → α → α) (z : α)
    (w v : ℤ → α) (L H K D Dm B ws0 ws1 ws2 : ℤ) (c : Bool) :
    (∀ st : Mem1D α,
        (launchState add mul z L H K D Dm B ws0 ws1 ws2 c st).weights = st.weights
      ∧ (launchState add mul z L H K D Dm B ws0 ws1 ws2 c st).values = st.values)
    ∧ (∀ (out : ℤ → α) (k : ℤ), k < 0 ∨ B * (H * (L * Dm)) ≤ k →
        launch add mul z w v out L H K D Dm B ws0 ws1 ws2 c k = out k)
    ∧ (∀ (out1 out2 : ℤ → α) (k : ℤ),
        k ∈ (launchWrites add mul z w v L H K D Dm B ws0 ws1 ws2 c).map Prod.fst →
        launch add mul z w v out1 L H K D Dm B ws0 ws1 ws2 c k
          = launch add mul z w v out2 L H K D Dm B ws0 ws1 ws2 c k)
    ∧ (∀ out : ℤ → α,
        launch add mul z w v
            (launch add mul z w v out L H K D Dm B ws0 ws1 ws2 c)
            L H K D Dm B ws0 ws1 ws2 c
          = launch add mul z w v out L H K D Dm B ws0 ws1 ws2 c) := by
  refine ⟨fun st => ⟨rfl, rfl⟩, ?_, ?_, ?_⟩
  · intro out k hk
    refine runWrites_of_ne _ _ _ ?_
    intro p hp
    have hb := launchWrites_key_range add mul z w v L H K D Dm B ws0 ws1 ws2 c p hp
    rcases hk with hk | hk
    · intro he; rw [he] at hb; linarith [hb.1]
    · intro he; rw [he] at hb; linarith [hb.2]
  · intro out1 out2 k hk
    exact runWrites_indep _ k hk out1 out2
  · intro out
    funext k
    by_cases hk : k ∈ (launchWrites add mul z w v L H K D Dm B ws0 ws1 ws2 c).map
        Prod.fst
    · exact runWrites_indep _ k hk _ _
    · have hne : ∀ p ∈ launchWrites add mul z w v L H K D Dm B ws0 ws1 ws2 c,
          p.1 ≠ k := by
        intro p hp he
        exact hk (List.mem_map.mpr ⟨p, hp, he⟩)
      exact runWrites_of_ne _ _ _ hne

theorem C10_frame_effects_witness :
    launch (fun a b => a + b) (fun a b => a * b) (0 : ℤ) (fun _ => 1) (fun _ => 1)
        (fun j => j) 2 1 1 1 1 1 1 1 1 false (-1) = -1
    ∧ launch (fun a b => a + b) (fun a b => a * b) (0 : ℤ) (fun _ => 1) (fun _ => 1)
        (fun _ => 5) 2 1 1 1 1 1 1 1 1 false 0
      = launch (fun a b => a + b) (fun a b => a * b) (0 : ℤ) (fun _ => 1) (fun _ => 1)
        (fun _ => 7) 2 1 1 1 1 1 1 1 1 false 0 :=
  have T := C10_frame_effects (fun a b => a + b) (fun a b => a * b) (0 : ℤ)
    (fun _ => 1) (fun _ => 1) 2 1 1 1 1 1 1 1 1 false
  ⟨T.2.1 (fun j => j) (-1) (Or.inl (by decide)),
    T.2.2.1 (fun _ => 5) (fun _ => 7) 0 (by decide)⟩

theorem C1_aggregate_output_witness :
    Odd (3 : ℤ)
    ∧ launch (fun a b => a + b) (fun a b => a * b) (0 : ℤ) (fun _ => 1) (fun _ => 1)
        (fun _ => 0) 5 1 3 1 1 1 15 15 3 false 1
      = ∑ _t ∈ Finset.range (loopCount (get_window_start 1 5 3 (3 / 2) 1 false)
            (get_window_end 1 (get_window_start 1 5 3 (3 / 2) 1 false) 5 3 (3 / 2) 1
              false) 1),
          (1 : ℤ) * 1 :=
  ⟨⟨1, by decide⟩,
    (C1_aggregate_output (fun _ => 1) (fun _ => 1) (fun _ => 0) 5 1 3 1 1 1 15 15 3
      false 0 0 1 0 (by decide) (by decide) (by decide) (by decide) (by decide)
      ⟨1, by decide⟩ (by decide) (by decide) (by decide) (by decide) (by decide)).2⟩

theorem C5_causal_window_witness :
    Odd (3 : ℤ)
    ∧ get_window_start 2 5 3 (3 / 2) 1 true = max (2 / 1 - 3 + 1) 0 * 1 + 2 % 1
    ∧ get_window_end 2 (get_window_start 2 5 3 (3 / 2) 1 true) 5 3 (3 / 2) 1 true
        = 2 + 1
    ∧ get_window_start 2 5 3 (3 / 2) 1 true = max (2 - 3 + 1) 0
    ∧ get_window_start 2 5 3 (3 / 2) 1 true + ((0 : ℕ) : ℤ) * 1 ≤ 2 :=
  have T := C5_causal_window 2 5 3 1 (by decide) (by decide) (by decide)
    ⟨1, by decide⟩ (by decide)
  ⟨⟨1, by decide⟩, T.1, T.2.1, T.2.2.1 rfl, T.2.2.2 0 (by decide)⟩

theorem C6_reads_in_bounds_witness :
    Odd (3 : ℤ)
    ∧ (0 ≤ get_window_start 2 5 3 (3 / 2) 1 false + ((0 : ℕ) : ℤ) * 1
        ∧ get_window_start 2 5 3 (3 / 2) 1 false + ((0 : ℕ) : ℤ) * 1 < 5)
    ∧ (0 ≤ (0 : ℤ) * (2 * (5 * 3)) + 1 * (5 * 3) + 4 * 3 + 2
        ∧ (0 : ℤ) * (2 * (5 * 3)) + 1 * (5 * 3) + 4 * 3 + 2 < 1 * (2 * (5 * 3))) :=
  have T := C6_reads_in_bounds 5 3 1 2 false (by decide) (by decide) (by decide)
    ⟨1, by decide⟩ (by decide)
  ⟨⟨1, by decide⟩, T.1 0 (by decide),
    T.2 1 2 3 0 1 2 4 (by decide) (by decide) (by decide) (by decide) (by decide)
      (by decide) (by decide) (by decide)⟩

end Natten
